import Mathlib

/-!
Verification of the PWL waveform generator `lt.py`.

The Python source is shallowly embedded here.  Python floats are modelled as
exact rationals (`ℚ`); Python's `round(x, nd)` (banker's rounding) is modelled
by decimal round-half-to-even on `ℚ`; Python's `int(x)` is truncation toward
zero; Python functions that can raise an exception are modelled as `Option`
valued functions returning `none` where the source raises.
-/

namespace PSESpice

/-- Round a rational to the nearest integer, ties to even; models Python's
built-in `round` / numpy rounding on exact values. -/
def rhalfeven (q : ℚ) : ℤ :=
  if q - (⌊q⌋ : ℚ) < 1 / 2 then ⌊q⌋
  else if (1 : ℚ) / 2 < q - (⌊q⌋ : ℚ) then ⌊q⌋ + 1
  else if ⌊q⌋ % 2 = 0 then ⌊q⌋ else ⌊q⌋ + 1

/-- Python's `round(x, 1)`: round to one decimal place. -/
def round1 (q : ℚ) : ℚ := (rhalfeven (q * 10) : ℚ) / 10

/-- Python's `int(x)`: truncation toward zero. -/
def pyInt (q : ℚ) : ℤ := if 0 ≤ q then ⌊q⌋ else ⌈q⌉

/-- One row of the expanded ladder (`frame` in `build_frame_from_script`):
the Python list `[time, dt, ch0, ch1, ...]` with the label slot overwritten
first by `0` and then by the accumulated time. -/
structure LRow where
  time : ℚ
  dt : ℚ
  levels : List ℚ
deriving DecidableEq

/-- A script row after the label is discarded: `(duration, channel levels)`.
In the source a row is a string `label,dt,ch0,ch1,...`; `e_list[0] = 0`
zeroes the label before any numeric parsing, so the label never carries
information. -/
def ScriptRow : Type := ℚ × List ℚ

/-- The two rows `build_frame_from_script` appends per script row: the edge
list `e_list` (duration replaced by the rise time 1) and the original list
`o_list`, every field passed through `round(float(j), 1)`. -/
def expandRow (r : ℚ × List ℚ) : List LRow :=
  [⟨round1 0, round1 1, r.2.map round1⟩, ⟨round1 0, round1 r.1, r.2.map round1⟩]

/-- The `frame` list right after the per-row loop, before `frame.pop(0)`. -/
def buildLadderRows (script : List (ℚ × List ℚ)) : List LRow :=
  script.flatMap expandRow

/-- The accumulation loop: `accumulated_time += row[1]; row[0] = accumulated_time`. -/
def accTime : ℚ → List LRow → List LRow
  | _, [] => []
  | t, r :: rest => ⟨t + r.dt, r.dt, r.levels⟩ :: accTime (t + r.dt) rest

/-- The ladder produced by `build_frame_from_script`: drop the first frame row
(`frame.pop(0)`, an `IndexError` on an empty frame, hence `none` for the empty
script) and accumulate time. -/
def ladderOfScript (script : List (ℚ × List ℚ)) : Option (List LRow) :=
  match buildLadderRows script with
  | [] => none
  | _ :: rest => some (accTime 0 rest)

/-- The `times` list: `times.append(o_list[1])` collects the rounded duration
of every script row. -/
def phaseTimes (script : List (ℚ × List ℚ)) : List ℚ :=
  script.map (fun r => round1 r.1)

/-- The five named timing quantities `times[1] .. times[5]`; `none` models the
`IndexError` raised when the script has fewer than six rows. -/
def namedTimes (script : List (ℚ × List ℚ)) : Option (ℚ × ℚ × ℚ × ℚ × ℚ) :=
  match phaseTimes script with
  | _ :: t1 :: t2 :: t3 :: t4 :: t5 :: _ => some (t1, t2, t3, t4, t5)
  | _ => none

/-- The tuple returned by `build_frame_from_script`. -/
structure FrameResult where
  frame : List LRow
  pw : ℚ
  dt0 : ℚ
  rpw : ℚ
  dt1 : ℚ
  gap : ℚ
deriving DecidableEq

/-- `build_frame_from_script`: the whole call raises (returns `none`) when
either the frame is empty or the script has fewer than six rows. -/
def build_frame_from_script (script : List (ℚ × List ℚ)) : Option FrameResult :=
  match ladderOfScript script, namedTimes script with
  | some f, some (a, b, c, d, e) => some ⟨f, a, b, c, d, e⟩
  | _, _ => none

/-- `PSE.__init__` line 52: `1 if self.period == 0 else int(1e6 / self.period)`. -/
def pseFrequency (period : ℚ) : ℚ :=
  if period = 0 then 1 else (pyInt (1000000 / period) : ℚ)

/-- The `(period, frequency)` pair computed in `PSE.__init__` from the named
timing quantities of a script. -/
def pseOutputs (script : List (ℚ × List ℚ)) : Option (ℚ × ℚ) :=
  (build_frame_from_script script).map
    (fun r => (r.pw + r.dt0 + r.rpw + r.dt1,
      pseFrequency (r.pw + r.dt0 + r.rpw + r.dt1)))

/-- The six-row example script from the docstring of `build_frame_from_script`
(labels discarded): start/pw/dt0/rpw/dt1/gap. -/
def exScript : List (ℚ × List ℚ) :=
  [(0, [0, 0, 0, 0]), (240, [1, 1, 0, 0]), (60, [0, 0, 0, 0]),
   (480, [1, 0, 0, 0]), (500, [0, 0, 1, 1]), (10, [0, 0, 0, 0])]

/-- The expanded ladder of `exScript`, written out. -/
def exLadder : List LRow :=
  [⟨0, 0, [0, 0, 0, 0]⟩,
   ⟨1, 1, [1, 1, 0, 0]⟩, ⟨241, 240, [1, 1, 0, 0]⟩,
   ⟨242, 1, [0, 0, 0, 0]⟩, ⟨302, 60, [0, 0, 0, 0]⟩,
   ⟨303, 1, [1, 0, 0, 0]⟩, ⟨783, 480, [1, 0, 0, 0]⟩,
   ⟨784, 1, [0, 0, 1, 1]⟩, ⟨1284, 500, [0, 0, 1, 1]⟩,
   ⟨1285, 1, [0, 0, 0, 0]⟩, ⟨1295, 10, [0, 0, 0, 0]⟩]

/-- The serializer's view of one channel (`spice_make_pwl`): the `Time` column
paired with the requested level column, one entry per frame row.  The textual
layout `<time>u <value>` is byte-level I/O; the `(time, value)` pairs are what
it writes, in frame order. -/
def channelSeries (frame : List LRow) (col : ℕ) : List (ℚ × ℚ) :=
  frame.map (fun r => (r.time, r.levels.getD col 0))

/-- Durations contributed by one script row, in frame order: the edge row's
rise time and the settle row's full duration, each quantized by
`round(float(j), 1)`. -/
def quantRow (r : ℚ × List ℚ) : List ℚ := [round1 1, round1 r.1]

/-- Running sums of a duration list starting from `t`: the cumulative
timestamps the accumulation loop assigns. -/
def runningSumsFrom : ℚ → List ℚ → List ℚ
  | _, [] => []
  | t, d :: rest => (t + d) :: runningSumsFrom (t + d) rest

/-- Running sums of a duration list starting from 0. -/
def runningSums (l : List ℚ) : List ℚ := runningSumsFrom 0 l

/-- `q` is a whole number of tenths (one-decimal quantized). -/
def tenth (q : ℚ) : Prop := ∃ n : ℤ, q = (n : ℚ) / 10

/-- `df[df[column].diff() != 0]` restricted to the rows the loop visits:
the first sample always counts (its diff is NaN), and afterwards a sample
counts when its raw value differs from its immediate predecessor. -/
def changeAux : ℚ → List (ℚ × ℚ) → List (ℚ × ℚ)
  | _, [] => []
  | prev, (t, v) :: rest =>
    if v = prev then changeAux prev rest else (t, v) :: changeAux v rest

/-- The change rows of a sampled trace (time in seconds, raw value). -/
def changeRows : List (ℚ × ℚ) → List (ℚ × ℚ)
  | [] => []
  | (t, v) :: rest => (t, v) :: changeAux v rest

/-- Column construction in `csv_to_pwl`: `round(Time * 1e6)` and
`(value != 0) * max_val`. -/
def mapRow (maxVal : ℤ) (p : ℚ × ℚ) : ℤ × ℤ :=
  (rhalfeven (p.1 * 1000000), if p.2 = 0 then 0 else maxVal)

/-- The emission loop of `csv_to_pwl` over the mapped change rows, carrying
`previous_value`.  A row whose time is 0 yields one breakpoint; any other row
yields two, `(t, previous)` and `(t+1, value)`, and raises a `TypeError`
(modelled by `none`) when `previous_value` is still `None`. -/
def emitRows : Option ℤ → List (ℤ × ℤ) → Option (List (ℤ × ℤ))
  | _, [] => some []
  | prev, (t, v) :: rest =>
    if t = 0 then (emitRows (some v) rest).map (fun l => (t, v) :: l)
    else
      match prev with
      | none => none
      | some p => (emitRows (some v) rest).map (fun l => (t, p) :: (t + 1, v) :: l)

/-- `csv_to_pwl`: the breakpoints written for one trace channel.  An empty
trace leaves `cmd_str` as `None` and the trailing `cmd_str + ')'` raises,
hence `none`. -/
def csv_to_pwl (trace : List (ℚ × ℚ)) (maxVal : ℤ) : Option (List (ℤ × ℤ)) :=
  match (changeRows trace).map (mapRow maxVal) with
  | [] => none
  | r :: rest => emitRows none (r :: rest)

/-- Modelled from the spec's words for the Edge Detector's per-change output
(§4.3): at every change after the first, two rows, one at the current time
carrying the previous mapped value and one at current time + 1 carrying the
new mapped value. -/
def pairEmit : ℤ → List (ℤ × ℤ) → List (ℤ × ℤ)
  | _, [] => []
  | p, (t, v) :: rest => (t, p) :: (t + 1, v) :: pairEmit v rest

/-- `dn.Time = dn.Time + d` over a frame whose rows are (time, other columns). -/
def shiftRows (d : ℚ) (rows : List (ℚ × List ℚ)) : List (ℚ × List ℚ) :=
  rows.map (fun r => (r.1 + d, r.2))

/-- The replication loop of `make_ac_pwl_file_for_spice`: each iteration
shifts the mutable copy `dn` by `period + 1` once more and appends it. -/
def replicateAux : ℕ → List (ℚ × List ℚ) → List (ℚ × List ℚ) → ℚ → List (ℚ × List ℚ)
  | 0, df, _, _ => df
  | n + 1, df, dn, off => replicateAux n (df ++ shiftRows off dn) (shiftRows off dn) off

/-- The Cycle Replicator: `dn = df.copy()` then
`for cycle in range(cycles): dn.Time += period + 1; df = df.append(dn)`. -/
def replicateCycles (base : List (ℚ × List ℚ)) (period : ℚ) (cycles : ℕ) :
    List (ℚ × List ℚ) :=
  replicateAux cycles base base (period + 1)

/-- Does `needle` occur at the start of `hay`? -/
def matchesAt : List Char → List Char → Bool
  | [], _ => true
  | _ :: _, [] => false
  | c :: cs, d :: ds => if c = d then matchesAt cs ds else false

/-- Python's `hay.find(needle)`: lowest occurrence index, `-1` if absent. -/
def pyFind (needle : List Char) : List Char → ℤ
  | [] => if matchesAt needle [] then 0 else -1
  | c :: t =>
    if matchesAt needle (c :: t) then 0
    else if pyFind needle t = -1 then -1 else pyFind needle t + 1

/-- Does `needle` occur anywhere in `hay`? -/
def containsSeq (needle : List Char) : List Char → Bool
  | [] => matchesAt needle []
  | c :: t => matchesAt needle (c :: t) || containsSeq needle t

/-- `re.search('[0-9]+', s)`: the first maximal run of digits, if any. -/
def firstDigitRun : List Char → Option (List Char)
  | [] => none
  | c :: t => if c.isDigit then some (c :: t.takeWhile Char.isDigit) else firstDigitRun t

/-- Numeric value of a digit string (what `float` returns on an all-digit
group). -/
def natOfDigits (l : List Char) : ℕ :=
  l.foldl (fun a c => a * 10 + (c.toNat - 48)) 0

/-- Python's `str.split(sep)` for a one-character separator. -/
def splitOnChar (sep : Char) : List Char → List (List Char)
  | [] => [[]]
  | c :: t =>
    if c = sep then [] :: splitOnChar sep t
    else
      match splitOnChar sep t with
      | [] => [[c]]
      | h :: r => (c :: h) :: r

/-- `parse_param_string`: take the fragment after the first `=`, extract the
first digit run, then scale by the first suffix found (at a positive index)
in `ss.lower()`, in the order meg, k, m, u, n, p.  `none` models the
exceptions raised when there is no `=` or no digit. -/
def parse_param_string (s : List Char) : Option ℚ :=
  match (splitOnChar '=' s).get? 1 with
  | none => none
  | some ss =>
    match firstDigitRun ss with
    | none => none
    | some ds =>
      let val : ℚ := natOfDigits ds
      let low := ss.map Char.toLower
      some (if pyFind ['m', 'e', 'g'] low > 0 then val * 1000000
        else if pyFind ['k'] low > 0 then val * 1000
        else if pyFind ['m'] low > 0 then val / 1000
        else if pyFind ['u'] low > 0 then val / 1000000
        else if pyFind ['n'] low > 0 then val / 1000000000
        else if pyFind ['p'] low > 0 then val / 1000000000000
        else val)

/-- Modelled from the spec's words for the Unit Scaler (§4.1): the multiplier
given by the first suffix, in the fixed priority order meg, k, m, u, n, p,
contained (case-insensitively) in the fragment following `=`; 1 when none is
present. -/
def specScaleOf (frag : List Char) : ℚ :=
  if containsSeq ['m', 'e', 'g'] (frag.map Char.toLower) then 1000000
  else if containsSeq ['k'] (frag.map Char.toLower) then 1000
  else if containsSeq ['m'] (frag.map Char.toLower) then 1 / 1000
  else if containsSeq ['u'] (frag.map Char.toLower) then 1 / 1000000
  else if containsSeq ['n'] (frag.map Char.toLower) then 1 / 1000000000
  else if containsSeq ['p'] (frag.map Char.toLower) then 1 / 1000000000000
  else 1

/-- The decimal digit characters. -/
def digitChars : List Char := ['0', '1', '2', '3', '4', '5', '6', '7', '8', '9']

/-- A bookkeeping phase plus a single real phase. -/
def ex2 : List (ℚ × List ℚ) := [(0, [0, 0, 0, 0]), (240, [1, 1, 0, 0])]

/-- The ladder of `ex2`, written out. -/
def lad2 : List LRow :=
  [⟨0, 0, [0, 0, 0, 0]⟩, ⟨1, 1, [1, 1, 0, 0]⟩, ⟨241, 240, [1, 1, 0, 0]⟩]

/-- A six-row script whose named durations are 600, 0, 0, 0 (gap 10). -/
def exC3 : List (ℚ × List ℚ) :=
  [(0, [0, 0, 0, 0]), (600, [1, 1, 0, 0]), (0, [0, 0, 0, 0]),
   (0, [1, 0, 0, 0]), (0, [0, 0, 1, 1]), (10, [0, 0, 0, 0])]

/-- A six-row script with a fractional pulse width and a zero gap. -/
def exC9 : List (ℚ × List ℚ) :=
  [(0, [0, 0, 0, 0]), (5 / 2, [1, 1, 0, 0]), (0, [0, 0, 0, 0]),
   (480, [1, 0, 0, 0]), (500, [0, 0, 1, 1]), (10, [0, 0, 0, 0])]

/-- The trace of the spec's end-to-end Edge Detector example: values
[0,0,1,1,0] at times [0,1,2,3,4] seconds. -/
def exTrace : List (ℚ × ℚ) := [(0, 0), (1, 0), (2, 1), (3, 1), (4, 0)]

/-- The ladder of `exC9`, written out: the repeated time 9/2 comes from the
zero-duration third phase, the fractional times from the duration 5/2. -/
def lad9 : List LRow :=
  [⟨0, 0, [0, 0, 0, 0]⟩,
   ⟨1, 1, [1, 1, 0, 0]⟩, ⟨7 / 2, 5 / 2, [1, 1, 0, 0]⟩,
   ⟨9 / 2, 1, [0, 0, 0, 0]⟩, ⟨9 / 2, 0, [0, 0, 0, 0]⟩,
   ⟨11 / 2, 1, [1, 0, 0, 0]⟩, ⟨971 / 2, 480, [1, 0, 0, 0]⟩,
   ⟨973 / 2, 1, [0, 0, 1, 1]⟩, ⟨1973 / 2, 500, [0, 0, 1, 1]⟩,
   ⟨1975 / 2, 1, [0, 0, 0, 0]⟩, ⟨1995 / 2, 10, [0, 0, 0, 0]⟩]

end PSESpice

namespace PSESpice

theorem rhalfeven_nonneg {q : ℚ} (h : 0 ≤ q) : 0 ≤ rhalfeven q := by
  have hf : (0 : ℤ) ≤ ⌊q⌋ := Int.floor_nonneg.mpr h
  unfold rhalfeven
  split
  · exact hf
  · split
    · omega
    · split <;> omega

theorem round1_nonneg {q : ℚ} (h : 0 ≤ q) : 0 ≤ round1 q := by
  have : (0 : ℤ) ≤ rhalfeven (q * 10) := rhalfeven_nonneg (by positivity)
  unfold round1
  positivity

theorem round1_tenth (q : ℚ) : tenth (round1 q) := ⟨rhalfeven (q * 10), rfl⟩

theorem tenth_add {a b : ℚ} (ha : tenth a) (hb : tenth b) : tenth (a + b) := by
  obtain ⟨m, rfl⟩ := ha
  obtain ⟨n, rfl⟩ := hb
  exact ⟨m + n, by push_cast; ring⟩

theorem tenth_zero : tenth 0 := ⟨0, by norm_num⟩

theorem accTime_map_time (rows : List LRow) :
    ∀ t, (accTime t rows).map LRow.time = runningSumsFrom t (rows.map LRow.dt) := by
  induction rows with
  | nil => intro t; rfl
  | cons r rest ih => intro t; simp [accTime, runningSumsFrom, ih]

theorem accTime_mem (rows : List LRow) :
    ∀ t r, r ∈ accTime t rows → ∃ r0 ∈ rows, r.dt = r0.dt ∧ r.levels = r0.levels := by
  induction rows with
  | nil => intro t r h; simp [accTime] at h
  | cons r0 rest ih =>
    intro t r h
    rw [accTime] at h
    rcases List.mem_cons.mp h with h1 | h2
    · exact ⟨r0, List.mem_cons_self .., by simp [h1]⟩
    · obtain ⟨r1, hm, he⟩ := ih (t + r0.dt) r h2
      exact ⟨r1, List.mem_cons_of_mem _ hm, he⟩

theorem runningSumsFrom_chain (ds : List ℚ) :
    ∀ t, (∀ d ∈ ds, 0 ≤ d) → List.Chain' (· ≤ ·) (runningSumsFrom t ds) := by
  induction ds with
  | nil => intro t _; simp [runningSumsFrom]
  | cons d rest ih =>
    intro t hd
    rw [runningSumsFrom, List.chain'_cons']
    refine ⟨?_, ih (t + d) (fun x hx => hd x (List.mem_cons_of_mem _ hx))⟩
    intro b hb
    cases rest with
    | nil => simp [runningSumsFrom] at hb
    | cons d2 r2 =>
      simp only [runningSumsFrom, List.head?_cons, Option.mem_def, Option.some.injEq] at hb
      have : 0 ≤ d2 := hd d2 (by simp)
      linarith [hb]

theorem runningSumsFrom_tenth (ds : List ℚ) :
    ∀ t, tenth t → (∀ d ∈ ds, tenth d) → ∀ x ∈ runningSumsFrom t ds, tenth x := by
  induction ds with
  | nil => intro t _ _ x hx; simp [runningSumsFrom] at hx
  | cons d rest ih =>
    intro t ht hd x hx
    rw [runningSumsFrom] at hx
    have htd : tenth (t + d) := tenth_add ht (hd d (by simp))
    rcases List.mem_cons.mp hx with h1 | h2
    · exact h1 ▸ htd
    · exact ih (t + d) htd (fun y hy => hd y (List.mem_cons_of_mem _ hy)) x h2

theorem buildLadderRows_map_dt (script : List (ℚ × List ℚ)) :
    (buildLadderRows script).map LRow.dt = script.flatMap quantRow := by
  induction script with
  | nil => rfl
  | cons r rest ih =>
    simp only [buildLadderRows, List.flatMap_cons] at ih ⊢
    simp [expandRow, quantRow, ih]

theorem buildLadderRows_mem (script : List (ℚ × List ℚ)) :
    ∀ r ∈ buildLadderRows script,
      ∃ s ∈ script, r.levels = s.2.map round1 ∧ (r.dt = round1 1 ∨ r.dt = round1 s.1) := by
  induction script with
  | nil => intro r h; simp [buildLadderRows] at h
  | cons s0 rest ih =>
    intro r h
    simp only [buildLadderRows, List.flatMap_cons, List.mem_append] at h
    rcases h with h1 | h2
    · simp only [expandRow, List.mem_cons, List.not_mem_nil, or_false] at h1
      rcases h1 with h1 | h1 <;>
        exact ⟨s0, List.mem_cons_self .., by simp [h1]⟩
    · obtain ⟨s, hm, he⟩ := ih r h2
      exact ⟨s, List.mem_cons_of_mem _ hm, he⟩

theorem ladderOfScript_eq {script : List (ℚ × List ℚ)} {l : List LRow}
    (h : ladderOfScript script = some l) :
    ∃ h0 rest, buildLadderRows script = h0 :: rest ∧ l = accTime 0 rest := by
  unfold ladderOfScript at h
  cases hb : buildLadderRows script with
  | nil => rw [hb] at h; simp at h
  | cons h0 rest =>
    rw [hb] at h
    simp only [Option.some.injEq] at h
    exact ⟨h0, rest, rfl, h.symm⟩

theorem emitRows_nonzero (rest : List (ℤ × ℤ)) :
    ∀ v, (∀ p ∈ rest, p.1 ≠ 0) → emitRows (some v) rest = some (pairEmit v rest) := by
  induction rest with
  | nil => intro v _; rfl
  | cons p r ih =>
    intro v hz
    obtain ⟨t, w⟩ := p
    have ht : t ≠ 0 := hz (t, w) (by simp)
    rw [emitRows, if_neg ht, ih w (fun q hq => hz q (List.mem_cons_of_mem _ hq))]
    rfl

theorem shiftRows_shiftRows (a b : ℚ) (l : List (ℚ × List ℚ)) :
    shiftRows a (shiftRows b l) = shiftRows (b + a) l := by
  simp [shiftRows, List.map_map, add_assoc]

theorem shiftRows_zero (l : List (ℚ × List ℚ)) : shiftRows 0 l = l := by
  simp [shiftRows]

theorem replicateAux_eq (n : ℕ) :
    ∀ (df dn : List (ℚ × List ℚ)) (off : ℚ),
      replicateAux n df dn off =
        df ++ (List.range n).flatMap (fun k => shiftRows ((k + 1 : ℕ) * off) dn) := by
  induction n with
  | zero => intro df dn off; simp [replicateAux]
  | succ m ih =>
    intro df dn off
    rw [replicateAux, ih]
    rw [List.range_succ_eq_map]
    simp only [List.flatMap_cons, List.flatMap_map]
    rw [List.append_assoc]
    congr 1
    congr 1
    · norm_num
    · refine List.flatMap_congr fun k _ => ?_
      rw [shiftRows_shiftRows]
      congr 1
      push_cast
      ring

theorem mem_digitChars_isDigit {c : Char} (h : c ∈ digitChars) : c.isDigit = true := by
  simp only [digitChars] at h
  fin_cases h <;> decide

theorem mem_digitChars_toLower {c : Char} (h : c ∈ digitChars) : c.toLower = c := by
  simp only [digitChars] at h
  fin_cases h <;> decide

theorem mem_digitChars_ne_eqsign {c : Char} (h : c ∈ digitChars) : c ≠ '=' := by
  simp only [digitChars] at h
  fin_cases h <;> decide

theorem mem_digitChars_ne_suffixes {c : Char} (h : c ∈ digitChars) :
    c ≠ 'm' ∧ c ≠ 'k' ∧ c ≠ 'u' ∧ c ≠ 'n' ∧ c ≠ 'p' := by
  simp only [digitChars] at h
  fin_cases h <;> decide

theorem splitOnChar_no_sep {sep : Char} (l : List Char) (h : sep ∉ l) :
    splitOnChar sep l = [l] := by
  induction l with
  | nil => rfl
  | cons c t ih =>
    have hc : ¬c = sep := fun e => h (e ▸ List.mem_cons_self ..)
    rw [splitOnChar, if_neg hc, ih (fun m => h (List.mem_cons_of_mem _ m))]

theorem splitOnChar_append {sep : Char} (name rest : List Char) (h : sep ∉ name) :
    splitOnChar sep (name ++ sep :: rest) = name :: splitOnChar sep rest := by
  induction name with
  | nil => simp [splitOnChar]
  | cons c t ih =>
    have hc : ¬c = sep := fun e => h (e ▸ List.mem_cons_self ..)
    rw [List.cons_append, splitOnChar, if_neg hc, ih (fun m => h (List.mem_cons_of_mem _ m))]

theorem takeWhile_append_all {p : Char → Bool} (a b : List Char)
    (ha : ∀ c ∈ a, p c = true) (hb : ∀ c ∈ b, p c = false) :
    (a ++ b).takeWhile p = a := by
  induction a with
  | nil =>
    cases b with
    | nil => rfl
    | cons c t => simp [List.takeWhile_cons, hb c (List.mem_cons_self ..)]
  | cons c t ih =>
    simp [List.takeWhile_cons, ha c (List.mem_cons_self ..),
      ih (fun x hx => ha x (List.mem_cons_of_mem _ hx))]

theorem firstDigitRun_eq (ds us : List Char) (hne : ds ≠ [])
    (hds : ∀ c ∈ ds, c.isDigit = true) (hus : ∀ c ∈ us, c.isDigit = false) :
    firstDigitRun (ds ++ us) = some ds := by
  cases ds with
  | nil => exact absurd rfl hne
  | cons d t =>
    rw [List.cons_append, firstDigitRun, if_pos (hds d (List.mem_cons_self ..))]
    rw [takeWhile_append_all t us (fun x hx => hds x (List.mem_cons_of_mem _ hx)) hus]

theorem pyFind_lower_bound (needle : List Char) (hay : List Char) :
    pyFind needle hay = -1 ∨ 0 ≤ pyFind needle hay := by
  induction hay with
  | nil => rw [pyFind]; split <;> simp
  | cons c t ih =>
    rw [pyFind]
    split
    · right; rfl
    · rcases ih with h | h
      · rw [if_pos h]; left; rfl
      · rw [if_neg (by omega)]; right; omega

theorem pyFind_neg_iff (needle : List Char) (hay : List Char) :
    pyFind needle hay = -1 ↔ containsSeq needle hay = false := by
  induction hay with
  | nil =>
    rw [pyFind, containsSeq]
    split <;> rename_i h <;> simp [h]
  | cons c t ih =>
    rw [pyFind, containsSeq]
    split <;> rename_i h
    · simp [h]
    · rw [Bool.not_eq_true] at h
      rw [h]
      simp only [Bool.false_or]
      rcases pyFind_lower_bound needle t with h2 | h2
      · rw [if_pos h2]; simp [ih.mp h2]
      · rw [if_neg (by omega)]
        constructor
        · intro e; omega
        · intro e; exact absurd (ih.mpr e) (by omega)

theorem pyFind_pos_iff (needle : List Char) (hay : List Char)
    (h : matchesAt needle hay = false) :
    0 < pyFind needle hay ↔ containsSeq needle hay = true := by
  cases hay with
  | nil => rw [containsSeq, h, pyFind, h]; simp
  | cons c t =>
    rw [pyFind, if_neg (by simp [h])]
    rcases pyFind_lower_bound needle t with h2 | h2
    · rw [if_pos h2]
      have := (pyFind_neg_iff needle (c :: t)).mp
      rw [pyFind, if_neg (by simp [h]), if_pos h2] at this
      simp [this rfl]
    · rw [if_neg (by omega)]
      have : containsSeq needle (c :: t) = true := by
        rcases Bool.eq_false_or_eq_true (containsSeq needle (c :: t)) with hb | hb
        · exact hb
        · exfalso
          have := (pyFind_neg_iff needle (c :: t)).mpr hb
          rw [pyFind, if_neg (by simp [h]), if_neg (by omega)] at this
          omega
      simp [this]
      omega

theorem map_toLower_digits (ds : List Char) (hds : ∀ c ∈ ds, c ∈ digitChars) :
    ds.map Char.toLower = ds := by
  induction ds with
  | nil => rfl
  | cons c t ih =>
    rw [List.map_cons, mem_digitChars_toLower (hds c (List.mem_cons_self ..)),
      ih (fun x hx => hds x (List.mem_cons_of_mem _ hx))]

/-- C8: For every parameter string name=(digits)(suffix tail without digits or
an equals sign, in particular any letter tail), the Unit Scaler matches
suffixes case-insensitively in the fixed priority order meg, k, m, u, n, p
(first match wins) against the fragment following the equals sign, multiplying
the extracted number by 1e6, 1e3, 1e-3, 1e-6, 1e-9, 1e-12 respectively, and
leaves the value unscaled when no recognized suffix is present. -/
theorem c8_unit_scaler (name ds us : List Char)
    (hn : '=' ∉ name) (hne : ds ≠ [])
    (hds : ∀ c ∈ ds, c ∈ digitChars)
    (hus : ∀ c ∈ us, c.isDigit = false ∧ c ≠ '=') :
    parse_param_string (name ++ '=' :: (ds ++ us)) =
      some ((natOfDigits ds : ℚ) * specScaleOf (ds ++ us)) := by
  obtain ⟨d0, dt, rfl⟩ : ∃ d0 dt, ds = d0 :: dt := by
    cases ds with
    | nil => exact absurd rfl hne
    | cons a b => exact ⟨a, b, rfl⟩
  have hnosep : ('=' : Char) ∉ (d0 :: dt) ++ us := by
    intro hm
    rcases List.mem_append.mp hm with h | h
    · exact mem_digitChars_ne_eqsign (hds _ h) rfl
    · exact (hus _ h).2 rfl
  have hsplit : splitOnChar '=' (name ++ '=' :: ((d0 :: dt) ++ us)) =
      name :: [(d0 :: dt) ++ us] := by
    rw [splitOnChar_append _ _ hn, splitOnChar_no_sep _ hnosep]
  have hfdr : firstDigitRun ((d0 :: dt) ++ us) = some (d0 :: dt) :=
    firstDigitRun_eq _ us hne (fun c hc => mem_digitChars_isDigit (hds c hc))
      (fun c hc => (hus c hc).1)
  have hlow : ((d0 :: dt) ++ us).map Char.toLower = (d0 :: dt) ++ us.map Char.toLower := by
    rw [List.map_append, map_toLower_digits _ hds]
  have hd0 := mem_digitChars_ne_suffixes (hds d0 (List.mem_cons_self ..))
  have hm : ∀ (c : Char) (nd : List Char), c ≠ d0 →
      matchesAt (c :: nd) ((d0 :: dt) ++ us.map Char.toLower) = false := by
    intro c nd hc
    rw [List.cons_append, matchesAt, if_neg hc]
  rw [parse_param_string, hsplit]
  simp only [List.get?_cons_succ, List.get?_cons_zero, hfdr, hlow]
  rw [specScaleOf]
  simp only [hlow]
  simp only [gt_iff_lt,
    pyFind_pos_iff _ _ (hm 'm' ['e', 'g'] (Ne.symm hd0.1)),
    pyFind_pos_iff _ _ (hm 'k' [] (Ne.symm hd0.2.1)),
    pyFind_pos_iff _ _ (hm 'm' [] (Ne.symm hd0.1)),
    pyFind_pos_iff _ _ (hm 'u' [] (Ne.symm hd0.2.2.1)),
    pyFind_pos_iff _ _ (hm 'n' [] (Ne.symm hd0.2.2.2.1)),
    pyFind_pos_iff _ _ (hm 'p' [] (Ne.symm hd0.2.2.2.2))]
  split_ifs <;> first
  | rfl
  | (congr 1; ring)

theorem accTime_length (rows : List LRow) : ∀ t, (accTime t rows).length = rows.length := by
  induction rows with
  | nil => intro t; rfl
  | cons r rest ih => intro t; simp [accTime, ih]

theorem buildLadderRows_length (script : List (ℚ × List ℚ)) :
    (buildLadderRows script).length = 2 * script.length := by
  induction script with
  | nil => rfl
  | cons r rest ih =>
    simp only [buildLadderRows, List.flatMap_cons, List.length_append] at ih ⊢
    simp [expandRow, ih]
    ring

theorem build_frame_eq {script : List (ℚ × List ℚ)} {r : FrameResult}
    (h : build_frame_from_script script = some r) :
    ladderOfScript script = some r.frame ∧
      namedTimes script = some (r.pw, r.dt0, r.rpw, r.dt1, r.gap) := by
  unfold build_frame_from_script at h
  cases h1 : ladderOfScript script with
  | none => rw [h1] at h; simp at h
  | some f =>
    cases h2 : namedTimes script with
    | none => rw [h1, h2] at h; simp at h
    | some v =>
      obtain ⟨a, b, c, d, e⟩ := v
      rw [h1, h2] at h
      simp only [Option.some.injEq] at h
      rw [← h]
      exact ⟨rfl, rfl⟩

/-- C1: for the six-row example script start/pw/dt0/rpw/dt1/gap with durations
0/240/60/480/500/10, the named timing quantities are pulse_width 240, gap0 60,
rebalance_width 480, gap1 500, and the derived period is 1280 with derived
frequency 781. -/
theorem c1_example :
    (build_frame_from_script exScript).map (fun r => (r.pw, r.dt0, r.rpw, r.dt1)) =
      some (240, 60, 480, 500) ∧
    pseOutputs exScript = some (1280, 781) := by
  constructor <;>
    norm_num [pseOutputs, build_frame_from_script, ladderOfScript, buildLadderRows,
      expandRow, accTime, namedTimes, phaseTimes, exScript, round1, rhalfeven,
      pseFrequency, pyInt]

/-- C2 counterexample: for the script of the bookkeeping phase plus one real
phase, the expanded ladder has three rows, not one; its first row carries the
bookkeeping phase's levels, not the real phase's; and two of its rows are
settle rows (duration not equal to the rise time 1). -/
theorem c2_counterexample :
    ladderOfScript ex2 = some lad2 ∧ lad2.length ≠ 1 ∧
      (lad2.headD ⟨0, 0, []⟩).levels ≠ [1, 1, 0, 0] ∧
      ((lad2.map LRow.dt).filter (fun d => decide (d ≠ 1))).length = 2 := by
  refine ⟨?_, by norm_num [lad2], by norm_num [lad2], by norm_num [lad2]⟩
  norm_num [ladderOfScript, buildLadderRows, expandRow, accTime, ex2, lad2, round1, rhalfeven]

/-- C2 (amended): exactly one row — the edge row of the very first
(bookkeeping) phase — is discarded from the expanded ladder, so a script of
1 + n phases yields 2n + 1 rows; the first emitted row is the settle row of
the bookkeeping phase (carrying its levels at time equal to its rounded
duration); and a script of exactly one real phase plus the bookkeeping phase
yields three rows: the bookkeeping settle row, then the real phase's edge and
settle rows. -/
theorem c2_amended (b p : ℚ) (bl pl : List ℚ) (rest : List (ℚ × List ℚ)) :
    (∃ l, ladderOfScript ((b, bl) :: rest) = some l ∧
        l.length = 2 * rest.length + 1 ∧
        l.head? = some ⟨round1 b, round1 b, bl.map round1⟩) ∧
    ladderOfScript [(b, bl), (p, pl)] =
      some [⟨round1 b, round1 b, bl.map round1⟩,
        ⟨round1 b + round1 1, round1 1, pl.map round1⟩,
        ⟨round1 b + round1 1 + round1 p, round1 p, pl.map round1⟩] := by
  constructor
  · refine ⟨accTime 0 (⟨round1 0, round1 b, bl.map round1⟩ :: rest.flatMap expandRow), rfl, ?_, ?_⟩
    · have h1 := accTime_length (⟨round1 0, round1 b, bl.map round1⟩ :: rest.flatMap expandRow) 0
      have h2 := buildLadderRows_length ((b, bl) :: rest)
      simp only [buildLadderRows, List.flatMap_cons] at h2
      simp only [expandRow] at h2
      simp only [List.length_cons] at h1 ⊢
      rw [h1]
      simp only [List.length_append, List.length_cons, List.length_nil] at h2
      have h3 := buildLadderRows_length rest
      rw [buildLadderRows] at h3
      omega
    · simp [accTime]
  · simp [ladderOfScript, buildLadderRows, expandRow, accTime]

/-- C3 counterexample: for a six-phase script whose named durations are
600, 0, 0, 0, the code computes period 600 and frequency `int(1e6/600) = 1666`
(truncation toward zero), whereas rounding 1e6/600 gives 1667. -/
theorem c3_counterexample :
    pseOutputs exC3 = some (600, 1666) ∧ round ((1000000 : ℚ) / 600) = 1667 ∧
      (1666 : ℚ) ≠ 1667 := by
  refine ⟨?_, by rw [round_eq]; norm_num, by norm_num⟩
  norm_num [pseOutputs, build_frame_from_script, ladderOfScript, buildLadderRows,
    expandRow, accTime, namedTimes, phaseTimes, exC3, round1, rhalfeven,
    pseFrequency, pyInt]

/-- C3 (amended): for every expanded script with nonnegative durations, the
derived period pw + dt0 + rpw + dt1 is nonnegative; whenever the period is ≤ 0
it is in fact 0 and the derived frequency is the sentinel 1 (no exception);
and for a positive period the frequency is the truncation toward zero of
1e6 / period (not its rounding). -/
theorem namedTimes_eq {script : List (ℚ × List ℚ)} {v : ℚ × ℚ × ℚ × ℚ × ℚ}
    (h : namedTimes script = some v) :
    ∃ r0 r1 r2 r3 r4 r5 tail, script = r0 :: r1 :: r2 :: r3 :: r4 :: r5 :: tail ∧
      v = (round1 r1.1, round1 r2.1, round1 r3.1, round1 r4.1, round1 r5.1) := by
  rcases script with _ | ⟨r0, _ | ⟨r1, _ | ⟨r2, _ | ⟨r3, _ | ⟨r4, _ | ⟨r5, tail⟩⟩⟩⟩⟩⟩
  · simp [namedTimes, phaseTimes] at h
  · simp [namedTimes, phaseTimes] at h
  · simp [namedTimes, phaseTimes] at h
  · simp [namedTimes, phaseTimes] at h
  · simp [namedTimes, phaseTimes] at h
  · simp [namedTimes, phaseTimes] at h
  · simp only [namedTimes, phaseTimes, List.map_cons, Option.some.injEq] at h
    exact ⟨r0, r1, r2, r3, r4, r5, tail, rfl, h.symm⟩

theorem c3_period_frequency (script : List (ℚ × List ℚ)) (P F : ℚ)
    (hd : ∀ r ∈ script, 0 ≤ r.1) (h : pseOutputs script = some (P, F)) :
    0 ≤ P ∧ (P ≤ 0 → P = 0 ∧ F = 1) ∧ (0 < P → F = (pyInt (1000000 / P) : ℚ)) := by
  rw [pseOutputs] at h
  rcases Option.map_eq_some'.mp h with ⟨r, hr, hpf⟩
  simp only [Prod.mk.injEq] at hpf
  obtain ⟨hP, hF⟩ := hpf
  have hnt := (build_frame_eq hr).2
  obtain ⟨r0, r1, r2, r3, r4, r5, tail, hsc, hv⟩ := namedTimes_eq hnt
  simp only [Prod.mk.injEq] at hv
  obtain ⟨e1, e2, e3, e4, _⟩ := hv
  have m1 : r1 ∈ script := by rw [hsc]; simp
  have m2 : r2 ∈ script := by rw [hsc]; simp
  have m3 : r3 ∈ script := by rw [hsc]; simp
  have m4 : r4 ∈ script := by rw [hsc]; simp
  have hPnn : 0 ≤ P := by
    rw [← hP, e1, e2, e3, e4]
    have := round1_nonneg (hd r1 m1)
    have := round1_nonneg (hd r2 m2)
    have := round1_nonneg (hd r3 m3)
    have := round1_nonneg (hd r4 m4)
    linarith
  refine ⟨hPnn, ?_, ?_⟩
  · intro hle
    have hP0 : P = 0 := le_antisymm hle hPnn
    refine ⟨hP0, ?_⟩
    rw [← hF, pseFrequency, if_pos (hP.trans hP0)]
  · intro hpos
    have hne : r.pw + r.dt0 + r.rpw + r.dt1 ≠ 0 := by rw [hP]; exact ne_of_gt hpos
    rw [← hF, pseFrequency, if_neg hne, hP]

/-- Witness for C3 (amended) at the example script: period 1280, frequency 781. -/
theorem c3_witness :
    0 ≤ (1280 : ℚ) ∧ ((1280 : ℚ) ≤ 0 → (1280 : ℚ) = 0 ∧ (781 : ℚ) = 1) ∧
      (0 < (1280 : ℚ) → (781 : ℚ) = (pyInt ((1000000 : ℚ) / 1280) : ℚ)) :=
  c3_period_frequency exScript 1280 781
    (by intro r hr; simp only [exScript] at hr; fin_cases hr <;> norm_num)
    (by norm_num [pseOutputs, build_frame_from_script, ladderOfScript, buildLadderRows,
      expandRow, accTime, namedTimes, phaseTimes, exScript, round1, rhalfeven,
      pseFrequency, pyInt])

/-- C4 counterexample: for the one-sample trace at time 1 s with value 5, the
first sample is a detected change, yet the code does not emit a single row at
its (nonzero) time — it raises (`previous_value` is still `None`), modelled by
`none`. -/
theorem c4_counterexample :
    csv_to_pwl [(1, 5)] 3 = none ∧
      (none : Option (List (ℤ × ℤ))) ≠ some [(1000000, 3)] := by
  refine ⟨?_, by decide⟩
  norm_num [csv_to_pwl, changeRows, changeAux, mapRow, emitRows, rhalfeven]

/-- C4 (amended): the first sample and every sample differing from its
predecessor are changes; a change row is emitted as a single row exactly when
its rounded microsecond time is 0; when the first change is at time 0 and all
later change times are nonzero, every subsequent change emits two rows, one at
the current time with the previous mapped value and one at current time + 1
with the new mapped value; a first change at a nonzero time is an error. -/
theorem c4_edge_emission (m : ℤ) (trace : List (ℚ × ℚ)) (v0 : ℤ) (rest : List (ℤ × ℤ))
    (h : (changeRows trace).map (mapRow m) = (0, v0) :: rest)
    (hz : ∀ p ∈ rest, p.1 ≠ 0) :
    csv_to_pwl trace m = some ((0, v0) :: pairEmit v0 rest) := by
  unfold csv_to_pwl
  rw [h]
  show emitRows none ((0, v0) :: rest) = _
  rw [emitRows, if_pos rfl, emitRows_nonzero rest v0 hz]
  rfl

/-- Witness for C4 (amended): trace 0 ↦ 0, 2 s ↦ 1 with max_val 3. -/
theorem c4_witness :
    csv_to_pwl [(0, 0), (2, 1)] 3 = some [(0, 0), (2000000, 0), (2000001, 3)] := by
  have h := c4_edge_emission 3 [(0, 0), (2, 1)] 0 [(2000000, 3)]
    (by norm_num [changeRows, changeAux, mapRow, rhalfeven])
    (by decide)
  rw [h]
  norm_num [pairEmit]

/-- C5: for the trace with values [0,0,1,1,0] at times [0,1,2,3,4] seconds and
max_val 3, the Edge Detector produces exactly the breakpoints
(0, 0), (2000000, 0), (2000001, 3), (4000000, 3), (4000001, 0) in µs. -/
theorem c5_trace_example :
    csv_to_pwl exTrace 3 =
      some [(0, 0), (2000000, 0), (2000001, 3), (4000000, 3), (4000001, 0)] := by
  norm_num [csv_to_pwl, changeRows, changeAux, mapRow, emitRows, exTrace, rhalfeven]

/-- C6: the Cycle Replicator's output is the concatenation of N + 1 copies of
the base, copy k shifted in time by k * (period + 1); with cycles = 0 the
output is exactly the base, unchanged. -/
theorem c6_replication (base : List (ℚ × List ℚ)) (period : ℚ) (n : ℕ) :
    replicateCycles base period n =
      (List.range (n + 1)).flatMap (fun k => shiftRows ((k : ℚ) * (period + 1)) base) ∧
    replicateCycles base period 0 = base := by
  constructor
  · rw [replicateCycles, replicateAux_eq]
    rw [List.range_succ_eq_map, List.flatMap_cons, List.flatMap_map]
    congr 1
    rw [Nat.cast_zero, zero_mul, shiftRows_zero]
  · rfl

/-- C7: a script with fewer than six phases makes the named timing quantities
(and hence `build_frame_from_script`) fail with a domain error, while the raw
ladder expansion is defined for every non-empty script. -/
theorem c7_shape (script : List (ℚ × List ℚ)) :
    (script.length < 6 → build_frame_from_script script = none) ∧
    (script ≠ [] → ∃ l, ladderOfScript script = some l) := by
  constructor
  · intro h
    have hnt : namedTimes script = none := by
      cases hn : namedTimes script with
      | none => rfl
      | some v =>
        obtain ⟨r0, r1, r2, r3, r4, r5, tail, hsc, _⟩ := namedTimes_eq hn
        rw [hsc] at h
        exfalso
        simp at h
        omega
    unfold build_frame_from_script
    rw [hnt]
    cases ladderOfScript script <;> rfl
  · intro h
    rcases script with _ | ⟨r, rest⟩
    · exact absurd rfl h
    · exact ⟨accTime 0 (⟨round1 0, round1 r.1, r.2.map round1⟩ :: rest.flatMap expandRow), rfl⟩

/-- Witness for C7 at the two-phase script: the named quantities fail, the
ladder expansion succeeds. -/
theorem c7_witness :
    build_frame_from_script ex2 = none ∧ ∃ l, ladderOfScript ex2 = some l :=
  ⟨(c7_shape ex2).1 (by norm_num [ex2]), (c7_shape ex2).2 (by simp [ex2])⟩

/-- Witness for C8 at the parameter string c=5k: the value 5 scaled by 1000. -/
theorem c8_witness : parse_param_string ['c', '=', '5', 'k'] = some 5000 := by
  have h := c8_unit_scaler ['c'] ['5'] ['k'] (by decide) (by decide) (by decide) (by decide)
  refine h.trans ?_
  simp +decide [natOfDigits, specScaleOf, containsSeq, matchesAt]
  norm_num

/-- C9 counterexample: for the six-phase script with pulse width 5/2 and a
zero-duration third phase, the serialized channel-0 time sequence is not
strictly ascending (time 9/2 repeats) and contains the non-integer time 7/2
microseconds. -/
theorem c9_counterexample :
    ladderOfScript exC9 = some lad9 ∧
    ¬ List.Chain' (· < ·) ((channelSeries lad9 0).map Prod.fst) ∧
    (7 / 2 : ℚ) ∈ (channelSeries lad9 0).map Prod.fst ∧
    ¬ (∃ n : ℤ, (7 / 2 : ℚ) = (n : ℚ)) := by
  refine ⟨?_, ?_, ?_, ?_⟩
  · norm_num [ladderOfScript, buildLadderRows, expandRow, accTime, exC9, lad9,
      round1, rhalfeven]
  · norm_num [channelSeries, lad9, List.chain'_cons]
  · norm_num [channelSeries, lad9]
  · rintro ⟨n, hn⟩
    have h7 : (7 : ℚ) = 2 * (n : ℚ) := by linarith
    have h2 : (7 : ℤ) = 2 * n := by exact_mod_cast h7
    omega

/-- C9 (amended): for every script with nonnegative durations, the serializer
emits one entry per ladder row, the serialized times are non-decreasing (not
necessarily strictly ascending), and every serialized time is a whole number
of tenths of a microsecond (an integer only when the quantized durations are). -/
theorem c9_serialization (script : List (ℚ × List ℚ)) (l : List LRow) (col : ℕ)
    (hd : ∀ r ∈ script, 0 ≤ r.1) (h : ladderOfScript script = some l) :
    (channelSeries l col).length = l.length ∧
    List.Chain' (· ≤ ·) ((channelSeries l col).map Prod.fst) ∧
    ∀ p ∈ channelSeries l col, tenth p.1 := by
  obtain ⟨h0, rest, hb, rfl⟩ := ladderOfScript_eq h
  have hmap : h0.dt :: (rest.map LRow.dt) = script.flatMap quantRow := by
    have h2 := buildLadderRows_map_dt script
    rw [hb] at h2
    simpa using h2
  have hdts : ∀ d ∈ rest.map LRow.dt, 0 ≤ d ∧ tenth d := by
    intro d hdm
    have hd2 : d ∈ script.flatMap quantRow := by
      rw [← hmap]
      exact List.mem_cons_of_mem _ hdm
    obtain ⟨s, hs, hq⟩ := List.mem_flatMap.mp hd2
    simp only [quantRow, List.mem_cons, List.not_mem_nil, or_false] at hq
    rcases hq with rfl | rfl
    · exact ⟨round1_nonneg (by norm_num), round1_tenth 1⟩
    · exact ⟨round1_nonneg (hd s hs), round1_tenth s.1⟩
  have hts : (channelSeries (accTime 0 rest) col).map Prod.fst =
      (accTime 0 rest).map LRow.time := by
    simp [channelSeries, List.map_map, Function.comp]
  refine ⟨by simp [channelSeries], ?_, ?_⟩
  · rw [hts, accTime_map_time]
    exact runningSumsFrom_chain _ 0 (fun d hd2 => (hdts d hd2).1)
  · intro p hp
    simp only [channelSeries, List.mem_map] at hp
    obtain ⟨r, hr, rfl⟩ := hp
    have hmem : r.time ∈ (accTime 0 rest).map LRow.time := List.mem_map_of_mem _ hr
    rw [accTime_map_time] at hmem
    exact runningSumsFrom_tenth _ 0 tenth_zero (fun d hd2 => (hdts d hd2).2) _ hmem

/-- Witness for C9 (amended) at the example script, channel 0. -/
theorem c9_witness :
    (channelSeries exLadder 0).length = exLadder.length ∧
    List.Chain' (· ≤ ·) ((channelSeries exLadder 0).map Prod.fst) ∧
    ∀ p ∈ channelSeries exLadder 0, tenth p.1 :=
  c9_serialization exScript exLadder 0
    (by intro r hr; simp only [exScript] at hr; fin_cases hr <;> norm_num)
    (by norm_num [ladderOfScript, buildLadderRows, expandRow, accTime, exScript, exLadder,
      round1, rhalfeven])

/-- C10: every parsed field is quantized to one decimal place before
cumulative-time accumulation: each ladder timestamp is the running sum of the
one-decimal-quantized durations (rise time 1 for edge rows, the phase's
rounded duration for settle rows, the bookkeeping edge dropped), and every
channel level stored in the ladder is the one-decimal rounding of a script
row's level. -/
theorem c10_quantization (script : List (ℚ × List ℚ)) (l : List LRow)
    (h : ladderOfScript script = some l) :
    l.map LRow.time = runningSums ((script.flatMap quantRow).drop 1) ∧
    ∀ r ∈ l, ∃ s ∈ script, r.levels = s.2.map round1 ∧
      (r.dt = round1 1 ∨ r.dt = round1 s.1) := by
  obtain ⟨h0, rest, hb, rfl⟩ := ladderOfScript_eq h
  have hmap : h0.dt :: (rest.map LRow.dt) = script.flatMap quantRow := by
    have h2 := buildLadderRows_map_dt script
    rw [hb] at h2
    simpa using h2
  constructor
  · rw [accTime_map_time, runningSums, ← hmap]
    rfl
  · intro r hr
    obtain ⟨r0, hr0, hdt, hlv⟩ := accTime_mem rest 0 r hr
    have hm : r0 ∈ buildLadderRows script := by
      rw [hb]
      exact List.mem_cons_of_mem _ hr0
    obtain ⟨s, hs, he1, he2⟩ := buildLadderRows_mem script r0 hm
    refine ⟨s, hs, by rw [hlv, he1], ?_⟩
    rw [hdt]
    exact he2

/-- Witness for C10 at the example script. -/
theorem c10_witness :
    exLadder.map LRow.time = runningSums ((exScript.flatMap quantRow).drop 1) ∧
    ∀ r ∈ exLadder, ∃ s ∈ exScript, r.levels = s.2.map round1 ∧
      (r.dt = round1 1 ∨ r.dt = round1 s.1) :=
  c10_quantization exScript exLadder
    (by norm_num [ladderOfScript, buildLadderRows, expandRow, accTime, exScript, exLadder,
      round1, rhalfeven])

end PSESpice


